import Mathlib

/-!
# NUMA-aware BFS (`numa-BFS.C`): embedding and verified properties

The first part embeds the code of `src/numa-BFS.C`: the locality hasher `PR_Hash_F`, the update
functor `BFS_F`, the range assignments of `BFS` and `BFSWorker`, and the round loop of
`BFSSubWorker`, run by one thread. Parts of the repository that the file only calls (the graph
type, the frontier set, the edge-map primitive, `CAS`) are modelled from the specification.
The second part states and proves the properties.

`int` and `intT` values are integers; array slots are indexed by `Fin n`, so every access is in
range. Division and remainder are C's truncating ones (`Int.tdiv`, `Int.tmod`).
-/

/-- Locality hasher of `src/numa-BFS.C` (struct `PR_Hash_F`): the three `int` fields. -/
structure PR_Hash_F where
  shardNum : Int
  vertPerShard : Int
  n : Int
deriving DecidableEq

namespace PR_Hash_F

/-- Constructor `PR_Hash_F(int _n, int _shardNum)`: `vertPerShard(_n / _shardNum)` with C's
truncating division. -/
def ctor (_n _shardNum : Int) : PR_Hash_F :=
  { shardNum := _shardNum, vertPerShard := Int.tdiv _n _shardNum, n := _n }

/-- Method `hashFunc`. -/
def hashFunc (h : PR_Hash_F) (index : Int) : Int :=
  if index ≥ h.shardNum * h.vertPerShard then index
  else
    let idxOfShard := Int.tmod index h.shardNum
    let idxInShard := Int.tdiv index h.shardNum
    idxOfShard * h.vertPerShard + idxInShard

/-- Method `hashBackFunc`. -/
def hashBackFunc (h : PR_Hash_F) (index : Int) : Int :=
  if index ≥ h.shardNum * h.vertPerShard then index
  else
    let idxOfShard := Int.tdiv index h.vertPerShard
    let idxInShard := Int.tmod index h.vertPerShard
    idxOfShard + idxInShard * h.shardNum

end PR_Hash_F

/-- Natural-number reading of `hashFunc`, used only inside proofs. -/
def natHash (N K I : Nat) : Nat :=
  if K * (N / K) ≤ I then I else (I % K) * (N / K) + I / K

/-- Natural-number reading of `hashBackFunc`, used only inside proofs. -/
def natHashBack (N K I : Nat) : Nat :=
  if K * (N / K) ≤ I then I else I / (N / K) + (I % (N / K)) * K

/-- Modelled from the spec: `CAS` is declared in the absent header `ligra-rewrite.h`; the spec's
glossary describes it as "an atomic operation that updates a memory location only if it currently
holds an expected value, reporting success/failure". The memory is the array the pointer points
into, the location is the slot `ptr`, and the whole operation is one step. -/
def CAS {n : Nat} (mem : Fin n → Int) (ptr : Fin n) (oldV newV : Int) : Bool × (Fin n → Int) :=
  if mem ptr = oldV then (true, Function.update mem ptr newV) else (false, mem)

namespace BFS_F

/-- Method `BFS_F::update` on the array `Parents` (returned together with the `bool` result):
`if (Parents[d] == -1) { Parents[d] = s; return 1; } else return 0;`. -/
def update {n : Nat} (Parents : Fin n → Int) (s : Int) (d : Fin n) : Bool × (Fin n → Int) :=
  if Parents d = -1 then (true, Function.update Parents d s) else (false, Parents)

/-- Method `BFS_F::updateAtomic`: `return CAS(&Parents[d], (intT)-1, s);`. -/
def updateAtomic {n : Nat} (Parents : Fin n → Int) (s : Int) (d : Fin n) :
    Bool × (Fin n → Int) :=
  CAS Parents d (-1) s

/-- Method `BFS_F::cond`: `return (Parents[d] == -1);`. -/
def cond {n : Nat} (Parents : Fin n → Int) (d : Fin n) : Bool :=
  decide (Parents d = -1)

end BFS_F

/-- One call of either update method, with its arguments `(s, d)`. -/
inductive Call (n : Nat) where
  | update (s : Int) (d : Fin n)
  | updateAtomic (s : Int) (d : Fin n)
deriving DecidableEq

namespace Call

/-- Source argument of a call. -/
def src {n : Nat} : Call n → Int
  | .update s _ => s
  | .updateAtomic s _ => s

/-- Destination argument of a call. -/
def dst {n : Nat} : Call n → Fin n
  | .update _ d => d
  | .updateAtomic _ d => d

/-- Result and new array of a call. -/
def run {n : Nat} (c : Call n) (Parents : Fin n → Int) : Bool × (Fin n → Int) :=
  match c with
  | .update s d => BFS_F.update Parents s d
  | .updateAtomic s d => BFS_F.updateAtomic Parents s d

end Call

/-- Array after a finite sequence of calls, executed left to right. -/
def runCalls {n : Nat} (Parents : Fin n → Int) (cs : List (Call n)) : Fin n → Int :=
  cs.foldl (fun P c => (c.run P).2) Parents

/-- Modelled from the spec: the graph type of the absent header `ligra-rewrite.h`, which per the
spec exposes the vertex count and per-vertex edge iteration. Vertices are the ids `[0, n)` and
every edge endpoint is a vertex. -/
structure graph where
  n : Nat
  outNeighbors : Fin n → List (Fin n)

/-- Modelled from the spec: the Frontier Set (`vertices` and `LocalFrontier` of the absent header)
for a single node: the bit per vertex and the non-zero count that `calculateNumOfNonZero`
recomputes and `isEmpty` / `numNonzeros` read. -/
structure vertices (n : Nat) where
  b : Fin n → Bool
  m : Nat

namespace vertices

/-- Modelled from the spec: `setBit(index, value)`, a direct bit set. -/
def setBit {n : Nat} (F : vertices n) (index : Fin n) (value : Bool) : vertices n :=
  { F with b := Function.update F.b index value }

/-- Modelled from the spec: `calculateNumOfNonZero` recomputes the count of set bits. -/
def calculateNumOfNonZero {n : Nat} (F : vertices n) : vertices n :=
  { F with m := (Finset.univ.filter (fun v => F.b v = true)).card }

/-- Modelled from the spec: `numNonzeros` reads the count. -/
def numNonzeros {n : Nat} (F : vertices n) : Nat := F.m

/-- Modelled from the spec: `isEmpty` is true iff the non-zero count is zero. -/
def isEmpty {n : Nat} (F : vertices n) : Bool := F.m == 0

end vertices

/-- Modelled from the spec: `switchFrontier`, the role swap: the buffer just written as next
becomes current, and the previous current buffer becomes the new next. -/
def switchFrontier {n : Nat} (F : vertices n) (output : Fin n → Bool) :
    vertices n × (Fin n → Bool) :=
  ({ F with b := output }, F.b)

/-- Modelled from the spec: what the edge-map does for one out-edge `s → d` with the `BFS_F`
functor: when `cond d` holds it calls `updateAtomic s d`, and a successful update deposits `d`
in the output buffer. -/
def edgeStep {n : Nat} (s : Fin n) (acc : (Fin n → Int) × (Fin n → Bool)) (d : Fin n) :
    (Fin n → Int) × (Fin n → Bool) :=
  if BFS_F.cond acc.1 d then
    let r := BFS_F.updateAtomic acc.1 ((s : Nat) : Int) d
    if r.1 then (r.2, Function.update acc.2 d true) else (r.2, acc.2)
  else acc

/-- Modelled from the spec: the edge-map primitive of the absent header, run sequentially: it
applies the functor over every out-edge of every frontier vertex, vertices in increasing id order
and each vertex's out-edges in adjacency order. -/
def edgeMap (G : graph) (Frontier : vertices G.n)
    (acc : (Fin G.n → Int) × (Fin G.n → Bool)) : (Fin G.n → Int) × (Fin G.n → Bool) :=
  (List.finRange G.n).foldl
    (fun a v => if Frontier.b v then (G.outNeighbors v).foldl (edgeStep v) a else a) acc

/-- Variables of `BFSSubWorker` that the round loop reads and writes. -/
structure BFSState (n : Nat) where
  Frontier : vertices n
  output : Fin n → Bool
  parents : Fin n → Int
  currIter : Nat
  numVisited : Nat

/-- Initialisation done by `BFSWorker` before the subworkers run, for the single node whose range
is `[0, n)`: the parent slots of the range are set to `-1`, both frontier buffers are cleared,
the bit of `start` is set in the frontier and `parents[start] = start`. -/
def BFSWorker_init (G : graph) (start : Fin G.n) : BFSState G.n :=
  let parents : Fin G.n → Int := fun _ => -1
  let frontier : Fin G.n → Bool := fun _ => false
  let Frontier : vertices G.n := vertices.setBit { b := frontier, m := 0 } start true
  let parents := Function.update parents start ((start : Nat) : Int)
  let next : Fin G.n → Bool := fun _ => false
  { Frontier := Frontier, output := next, parents := parents, currIter := 0, numVisited := 0 }

/-- Loop condition of `BFSSubWorker`: `!Frontier->isEmpty() || currIter == 0`. -/
def loopCond {n : Nat} (st : BFSState n) : Bool :=
  !st.Frontier.isEmpty || st.currIter == 0

/-- Body of the `while` loop of `BFSSubWorker`, run by one thread that plays every role (the
barriers and the timing calls do nothing then): `currIter++`,
`numVisited += Frontier->numNonzeros()`, the `parallel_for` that clears `output`, the `edgeMap`
call with `BFS_F(parents)`, `switchFrontier(tid, Frontier, output)` and
`Frontier->calculateNumOfNonZero(tid)`. -/
def roundBody (G : graph) (st : BFSState G.n) : BFSState G.n :=
  let currIter := st.currIter + 1
  let numVisited := st.numVisited + st.Frontier.numNonzeros
  let output : Fin G.n → Bool := fun _ => false
  let r := edgeMap G st.Frontier (st.parents, output)
  let sw := switchFrontier st.Frontier r.2
  let Frontier := sw.1.calculateNumOfNonZero
  { Frontier := Frontier, output := sw.2, parents := r.1, currIter := currIter,
    numVisited := numVisited }

/-- The `while` loop of `BFSSubWorker` with a bound on the number of rounds: `none` when the bound
is used up while the loop condition still holds. -/
def roundLoop (G : graph) : Nat → BFSState G.n → Option (BFSState G.n)
  | 0, st => if loopCond st then none else some st
  | fuel + 1, st => if loopCond st then roundLoop G fuel (roundBody G st) else some st

/-- `BFSSubWorker`: the frontier count is computed once, then the round loop runs. -/
def BFSSubWorker (G : graph) (fuel : Nat) (st : BFSState G.n) : Option (BFSState G.n) :=
  roundLoop G fuel { st with Frontier := st.Frontier.calculateNumOfNonZero }

/-- The traversal of `BFS` on one node, run by one thread: `BFSWorker` initialisation followed by
`BFSSubWorker`. With one node the hasher `PR_Hash_F(GA.n, 1)` is the identity, so
`hasher.hashFunc(start)` is `start` and the relabelled graph is the graph itself. -/
def BFS (G : graph) (start : Fin G.n) (fuel : Nat) : Option (BFSState G.n) :=
  BFSSubWorker G fuel (BFSWorker_init G start)

/-- The path graph with edges 0-1, 1-2, 2-3 (symmetric). -/
def pathGraph : graph :=
  { n := 4
    outNeighbors := fun v =>
      match v with
      | ⟨0, _⟩ => [1]
      | ⟨1, _⟩ => [0, 2]
      | ⟨2, _⟩ => [1, 3]
      | _ => [2] }

/-- The directed path graph 0→1→2→3. -/
def pathGraphDirected : graph :=
  { n := 4
    outNeighbors := fun v =>
      match v with
      | ⟨0, _⟩ => [1]
      | ⟨1, _⟩ => [2]
      | ⟨2, _⟩ => [3]
      | _ => [] }

/-- The graph with components {0,1} and {2,3} (symmetric edges 0-1 and 2-3). -/
def twoComponents : graph :=
  { n := 4
    outNeighbors := fun v =>
      match v with
      | ⟨0, _⟩ => [1]
      | ⟨1, _⟩ => [0]
      | ⟨2, _⟩ => [3]
      | _ => [2] }

/-- Observable outcome of a run: the parent array as a list, `currIter` and `numVisited`. -/
def report {n : Nat} (r : Option (BFSState n)) : Option (List Int × Nat × Nat) :=
  r.map (fun st => (List.ofFn st.parents, st.currIter, st.numVisited))

/-- Edge relation of a graph: `v` is an out-neighbour of `u`. -/
def graph.edge (G : graph) (u v : Fin G.n) : Prop := v ∈ G.outNeighbors u

/-- There is a walk of exactly `k` edges from `src` to the vertex. -/
inductive Walk (G : graph) (src : Fin G.n) : Nat → Fin G.n → Prop where
  | zero : Walk G src 0 src
  | step {k : Nat} {u v : Fin G.n} : Walk G src k u → G.edge u v → Walk G src (k + 1) v

/-- The vertex is at most `r` edges away from `src`. -/
def Within (G : graph) (src : Fin G.n) (r : Nat) (v : Fin G.n) : Prop :=
  ∃ k, k ≤ r ∧ Walk G src k v

/-- The BFS distance from `src` to the vertex is exactly `r`. -/
def Layer (G : graph) (src : Fin G.n) (r : Nat) (v : Fin G.n) : Prop :=
  Walk G src r v ∧ ∀ k, k < r → ¬ Walk G src k v

/-- State at the top of round `r` (after `r` executions of the loop body). -/
def stateAt (G : graph) (start : Fin G.n) (r : Nat) : BFSState G.n :=
  (roundBody G)^[r]
    { BFSWorker_init G start with
      Frontier := (BFSWorker_init G start).Frontier.calculateNumOfNonZero }

/-- Effect of a batch of edge steps on the pair (parents, output), for the batch whose edges are
described by `S`. -/
def Grow {n : Nat} (S : Fin n → Fin n → Prop)
    (a b : (Fin n → Int) × (Fin n → Bool)) : Prop :=
  (∀ v, a.1 v ≠ -1 → b.1 v = a.1 v) ∧
  (∀ v, a.1 v = -1 → (b.1 v ≠ -1 ↔ ∃ s, S s v)) ∧
  (∀ v, a.1 v = -1 → b.1 v ≠ -1 → ∃ s, S s v ∧ b.1 v = ((s : Nat) : Int)) ∧
  (∀ v, b.2 v = true ↔ (a.2 v = true ∨ (a.1 v = -1 ∧ ∃ s, S s v)))

/-- Number of visited slots (`parent[v] != -1`) of a parent array. -/
def visitedCount {n : Nat} (parents : Fin n → Int) : Nat :=
  (Finset.univ.filter (fun v => parents v ≠ -1)).card

/-- Invariant of the round loop at the top of round `r`. -/
structure RoundInv (G : graph) (src : Fin G.n) (r : Nat) (st : BFSState G.n) : Prop where
  iter : st.currIter = r
  front : ∀ v, st.Frontier.b v = true ↔ Layer G src r v
  count : st.Frontier.m = (Finset.univ.filter (fun v => st.Frontier.b v = true)).card
  visited : ∀ v, st.parents v ≠ -1 ↔ Within G src r v
  root : st.parents src = ((src : Nat) : Int)
  tree : ∀ v, v ≠ src → st.parents v ≠ -1 →
    ∃ (p : Fin G.n) (k : Nat), st.parents v = ((p : Nat) : Int) ∧ G.edge p v ∧ Layer G src k p ∧
      Layer G src (k + 1) v
  total : st.numVisited + st.Frontier.m = visitedCount st.parents

/-- Number of unvisited slots (`parent[v] == -1`) of a parent array. -/
def unvisitedCount {n : Nat} (parents : Fin n → Int) : Nat :=
  (Finset.univ.filter (fun v => parents v = -1)).card

/-- Macro `CORES_PER_NODE`. -/
def CORES_PER_NODE : Nat := 6

/-- Fields of `struct BFS_subworker_arg` that describe which subworker owns which range. -/
structure BFS_subworker_arg where
  tid : Int
  subTid : Int
  startPos : Int
  endPos : Int
  rangeLow : Int
  rangeHi : Int
deriving DecidableEq

/-- The subworker-spawning `for` loop of `BFSWorker` from iteration `i` on, with the current value
of the local `startPos` and the shard sizes not yet consumed: each iteration fills one argument
record with `startPos`, `endPos = startPos + sizeOfShards[i]` and then sets
`startPos = arg->endPos`. -/
def spawnLoop (tid rangeLow rangeHi : Int) : Nat → Int → List Int → List BFS_subworker_arg
  | _, _, [] => []
  | i, startPos, size :: rest =>
    { tid := tid, subTid := (i : Int), startPos := startPos, endPos := startPos + size,
      rangeLow := rangeLow, rangeHi := rangeHi }
      :: spawnLoop tid rangeLow rangeHi (i + 1) (startPos + size) rest

/-- The argument records `BFSWorker` hands to its subworkers `0 .. CORES_PER_NODE-1`, given the
array `sizeOfShards` filled by the partitioner: `int startPos = 0;` followed by the loop. -/
def BFSWorker_args (tid rangeLow rangeHi : Int) (sizeOfShards : Fin CORES_PER_NODE → Int) :
    List BFS_subworker_arg :=
  spawnLoop tid rangeLow rangeHi 0 0 (List.ofFn sizeOfShards)

/-- The thread-creating `for` loop of `BFS`, with the current value of the local `prev` and the
entries of `sizeArr` not yet consumed: node `i` gets `rangeLow = prev` and
`rangeHi = prev + sizeArr[i]`, then `prev = prev + sizeArr[i]`. The result lists the
`(rangeLow, rangeHi)` pairs in node order. -/
def nodeRangeLoop : Int → List Int → List (Int × Int)
  | _, [] => []
  | prev, size :: rest => (prev, prev + size) :: nodeRangeLoop (prev + size) rest

/-- Node ranges assigned by `BFS`: `int prev = 0;` followed by the loop. -/
def BFS_nodeRanges (sizeArr : List Int) : List (Int × Int) :=
  nodeRangeLoop 0 sizeArr

/-! ## Properties -/

theorem nat_interleave_lt (K V I : Nat) (hI : I < K * V) : (I % K) * V + I / K < K * V := by
  have hK : 0 < K := by
    rcases Nat.eq_zero_or_pos K with h | h
    · subst h; simp at hI
    · exact h
  have h1 : I / K < V := by
    rw [Nat.div_lt_iff_lt_mul hK]; rw [Nat.mul_comm]; exact hI
  have h2 : I % K < K := Nat.mod_lt _ hK
  have h3 : (I % K + 1) * V ≤ K * V := Nat.mul_le_mul_right V h2
  have h4 : (I % K + 1) * V = (I % K) * V + V := by ring
  omega

theorem nat_deinterleave_lt (K V I : Nat) (hI : I < K * V) : I / V + (I % V) * K < K * V := by
  have := nat_interleave_lt V K I (by rw [Nat.mul_comm]; exact hI)
  rw [Nat.mul_comm K V]; omega

theorem nat_interleave_div (K V I : Nat) (hI : I < K * V) :
    ((I % K) * V + I / K) / V = I % K ∧ ((I % K) * V + I / K) % V = I / K := by
  have hK : 0 < K := by
    rcases Nat.eq_zero_or_pos K with h | h
    · subst h; simp at hI
    · exact h
  have h1 : I / K < V := by
    rw [Nat.div_lt_iff_lt_mul hK]; rw [Nat.mul_comm]; exact hI
  have hV : 0 < V := Nat.lt_of_le_of_lt (Nat.zero_le _) h1
  constructor
  · rw [Nat.add_comm, Nat.add_mul_div_right _ _ hV, Nat.div_eq_of_lt h1]; simp
  · rw [Nat.add_comm, Nat.add_mul_mod_self_right, Nat.mod_eq_of_lt h1]

theorem nat_deinterleave_div (K V I : Nat) (hI : I < K * V) :
    (I / V + (I % V) * K) % K = I / V ∧ (I / V + (I % V) * K) / K = I % V := by
  have h := nat_interleave_div V K I (by rw [Nat.mul_comm]; exact hI)
  rw [Nat.add_comm] at h
  exact ⟨h.2, h.1⟩

theorem hashFunc_natCast (N K I : Nat) :
    PR_Hash_F.hashFunc (PR_Hash_F.ctor (N : Int) (K : Int)) (I : Int) = (natHash N K I : Int) := by
  unfold PR_Hash_F.hashFunc PR_Hash_F.ctor natHash
  simp only [← Int.ofNat_tdiv, ← Int.ofNat_tmod, ge_iff_le]
  by_cases h : K * (N / K) ≤ I
  · have h' : (K : Int) * ((N / K : Nat) : Int) ≤ (I : Int) := by exact_mod_cast h
    rw [if_pos h', if_pos h]
  · have h' : ¬ (K : Int) * ((N / K : Nat) : Int) ≤ (I : Int) := by
      intro hc; exact h (by exact_mod_cast hc)
    rw [if_neg h', if_neg h]
    push_cast
    rfl

theorem hashBackFunc_natCast (N K I : Nat) :
    PR_Hash_F.hashBackFunc (PR_Hash_F.ctor (N : Int) (K : Int)) (I : Int)
      = (natHashBack N K I : Int) := by
  unfold PR_Hash_F.hashBackFunc PR_Hash_F.ctor natHashBack
  simp only [← Int.ofNat_tdiv, ← Int.ofNat_tmod, ge_iff_le]
  by_cases h : K * (N / K) ≤ I
  · have h' : (K : Int) * ((N / K : Nat) : Int) ≤ (I : Int) := by exact_mod_cast h
    rw [if_pos h', if_pos h]
  · have h' : ¬ (K : Int) * ((N / K : Nat) : Int) ≤ (I : Int) := by
      intro hc; exact h (by exact_mod_cast hc)
    rw [if_neg h', if_neg h]
    push_cast
    rfl

theorem natHashBack_natHash (N K I : Nat) : natHashBack N K (natHash N K I) = I := by
  unfold natHash
  by_cases h : K * (N / K) ≤ I
  · rw [if_pos h]; unfold natHashBack; rw [if_pos h]
  · rw [if_neg h]
    have hI : I < K * (N / K) := Nat.lt_of_not_le h
    have hlt := nat_interleave_lt K (N / K) I hI
    unfold natHashBack
    rw [if_neg (Nat.not_le_of_lt hlt)]
    obtain ⟨hd, hm⟩ := nat_interleave_div K (N / K) I hI
    rw [hd, hm, Nat.mul_comm]
    exact Nat.mod_add_div I K

theorem natHash_natHashBack (N K I : Nat) : natHash N K (natHashBack N K I) = I := by
  unfold natHashBack
  by_cases h : K * (N / K) ≤ I
  · rw [if_pos h]; unfold natHash; rw [if_pos h]
  · rw [if_neg h]
    have hI : I < K * (N / K) := Nat.lt_of_not_le h
    have hlt := nat_deinterleave_lt K (N / K) I hI
    unfold natHash
    rw [if_neg (Nat.not_le_of_lt hlt)]
    obtain ⟨hm, hd⟩ := nat_deinterleave_div K (N / K) I hI
    rw [hd, hm]
    have := Nat.div_add_mod I (N / K)
    rw [Nat.mul_comm] at this
    omega

theorem natHash_lt (N K I : Nat) (h : I < N) : natHash N K I < N := by
  unfold natHash
  by_cases hc : K * (N / K) ≤ I
  · rw [if_pos hc]; exact h
  · rw [if_neg hc]
    have := nat_interleave_lt K (N / K) I (Nat.lt_of_not_le hc)
    have := Nat.mul_div_le N K
    omega

theorem natHashBack_lt (N K I : Nat) (h : I < N) : natHashBack N K I < N := by
  unfold natHashBack
  by_cases hc : K * (N / K) ≤ I
  · rw [if_pos hc]; exact h
  · rw [if_neg hc]
    have := nat_deinterleave_lt K (N / K) I (Nat.lt_of_not_le hc)
    have := Nat.mul_div_le N K
    omega

/-- Every product and sum formed by `hashFunc` and `hashBackFunc` on an index of `[0, n)` lies
in `[0, n]`, so the `int` arithmetic of the source cannot wrap when `n` is an `int`. -/
theorem hash_intermediates_bounded (n k i : Int) (hn : 0 ≤ n) (hk : 1 ≤ k) (hi0 : 0 ≤ i)
    (hi : i < k * Int.tdiv n k) :
    0 ≤ k * Int.tdiv n k ∧ k * Int.tdiv n k ≤ n ∧
    0 ≤ Int.tmod i k * Int.tdiv n k ∧ Int.tmod i k * Int.tdiv n k ≤ n ∧
    0 ≤ Int.tdiv i k ∧ Int.tmod i k * Int.tdiv n k + Int.tdiv i k ≤ n ∧
    0 ≤ Int.tdiv i (Int.tdiv n k) ∧
    0 ≤ Int.tmod i (Int.tdiv n k) * k ∧ Int.tmod i (Int.tdiv n k) * k ≤ n ∧
    Int.tdiv i (Int.tdiv n k) + Int.tmod i (Int.tdiv n k) * k ≤ n := by
  lift n to ℕ using hn
  lift k to ℕ using (by omega)
  lift i to ℕ using hi0
  simp only [← Int.ofNat_tdiv, ← Int.ofNat_tmod] at hi ⊢
  have hI : i < k * (n / k) := by exact_mod_cast hi
  have h1 := nat_interleave_lt k (n / k) i hI
  have h2 := nat_deinterleave_lt k (n / k) i hI
  have h3 := Nat.mul_div_le n k
  refine ⟨by positivity, by exact_mod_cast h3, by positivity, ?_, by positivity, ?_,
    by positivity, by positivity, ?_, ?_⟩
  · have : i % k * (n / k) ≤ n :=
      le_trans (Nat.le_add_right _ _) (le_trans (le_of_lt h1) h3)
    exact_mod_cast this
  · have : i % k * (n / k) + i / k ≤ n := le_trans (le_of_lt h1) h3
    exact_mod_cast this
  · have : i % (n / k) * k ≤ n :=
      le_trans (Nat.le_add_left _ _) (le_trans (le_of_lt h2) h3)
    exact_mod_cast this
  · have : i / (n / k) + i % (n / k) * k ≤ n := le_trans (le_of_lt h2) h3
    exact_mod_cast this

/-- C1. For every vertex count `n ≥ 0`, shard count `k ≥ 1` and index `0 ≤ i < n`, the two maps
of `PR_Hash_F(n, k)` undo each other: `hashBackFunc (hashFunc i) = i` and
`hashFunc (hashBackFunc i) = i`; both maps send `[0, n)` into `[0, n)`. -/
theorem hash_mutual_inverse (n k i : Int) (hn : 0 ≤ n) (hk : 1 ≤ k) (hi0 : 0 ≤ i) (hin : i < n) :
    PR_Hash_F.hashBackFunc (PR_Hash_F.ctor n k) (PR_Hash_F.hashFunc (PR_Hash_F.ctor n k) i) = i ∧
    PR_Hash_F.hashFunc (PR_Hash_F.ctor n k) (PR_Hash_F.hashBackFunc (PR_Hash_F.ctor n k) i) = i ∧
    0 ≤ PR_Hash_F.hashFunc (PR_Hash_F.ctor n k) i ∧
    PR_Hash_F.hashFunc (PR_Hash_F.ctor n k) i < n ∧
    0 ≤ PR_Hash_F.hashBackFunc (PR_Hash_F.ctor n k) i ∧
    PR_Hash_F.hashBackFunc (PR_Hash_F.ctor n k) i < n := by
  lift n to ℕ using hn
  lift k to ℕ using (by omega)
  lift i to ℕ using hi0
  have hI : i < n := by exact_mod_cast hin
  refine ⟨?_, ?_, ?_, ?_, ?_, ?_⟩
  · rw [hashFunc_natCast, hashBackFunc_natCast, natHashBack_natHash]
  · rw [hashBackFunc_natCast, hashFunc_natCast, natHash_natHashBack]
  · rw [hashFunc_natCast]; exact Int.ofNat_nonneg _
  · rw [hashFunc_natCast]; exact_mod_cast natHash_lt n k i hI
  · rw [hashBackFunc_natCast]; exact Int.ofNat_nonneg _
  · rw [hashBackFunc_natCast]; exact_mod_cast natHashBack_lt n k i hI

theorem hash_mutual_inverse_witness :
    (0 : Int) ≤ 7 ∧ (1 : Int) ≤ 3 ∧ (0 : Int) ≤ 4 ∧ (4 : Int) < 7 ∧
    PR_Hash_F.hashBackFunc (PR_Hash_F.ctor 7 3) (PR_Hash_F.hashFunc (PR_Hash_F.ctor 7 3) 4) = 4 ∧
    PR_Hash_F.hashFunc (PR_Hash_F.ctor 7 3) (PR_Hash_F.hashBackFunc (PR_Hash_F.ctor 7 3) 4) = 4 :=
  ⟨by decide, by decide, by decide, by decide,
    (hash_mutual_inverse 7 3 4 (by decide) (by decide) (by decide) (by decide)).1,
    (hash_mutual_inverse 7 3 4 (by decide) (by decide) (by decide) (by decide)).2.1⟩

theorem block_unique (V a b q : Int) (hV : 0 < V) (hq0 : 0 ≤ q) (hq : q < V)
    (h1 : b * V ≤ a * V + q) (h2 : a * V + q < (b + 1) * V) : b = a := by
  rcases lt_trichotomy b a with h | h | h
  · exfalso
    have h3 : (b + 1) * V ≤ a * V := Int.mul_le_mul_of_nonneg_right (by omega) (le_of_lt hV)
    omega
  · exact h
  · exfalso
    have h3 : (a + 1) * V ≤ b * V := Int.mul_le_mul_of_nonneg_right (by omega) (le_of_lt hV)
    have h4 : (a + 1) * V = a * V + V := by ring
    omega

theorem hashFunc_below (n k i : Int) (hn : 0 ≤ n) (hk : 1 ≤ k) (hi0 : 0 ≤ i)
    (hi : i < k * (n / k)) :
    PR_Hash_F.hashFunc (PR_Hash_F.ctor n k) i = (i % k) * (n / k) + i / k ∧
    0 ≤ i % k ∧ i % k < k ∧ 0 ≤ i / k ∧ i / k < n / k ∧ k * (n / k) ≤ n := by
  have hk0 : (0 : Int) ≤ k := by omega
  have hkpos : (0 : Int) < k := by omega
  refine ⟨?_, Int.emod_nonneg _ (by omega), Int.emod_lt_of_pos _ hkpos,
    Int.ediv_nonneg hi0 hk0, ?_, ?_⟩
  · unfold PR_Hash_F.hashFunc PR_Hash_F.ctor
    simp only [Int.tdiv_eq_ediv hn hk0, Int.tdiv_eq_ediv hi0 hk0, Int.tmod_eq_emod hi0 hk0]
    rw [if_neg (by omega)]
  · rw [Int.ediv_lt_iff_lt_mul hkpos, Int.mul_comm]; exact hi
  · exact Int.mul_ediv_self_le (by omega)

/-- C2. For every `n`, every `k ≥ 1` and every index `0 ≤ i < k * ⌊n/k⌋`, `hashFunc i` is
`(i % k) * ⌊n/k⌋ + i / k`, which lies in the contiguous block
`[(i % k) * ⌊n/k⌋, (i % k + 1) * ⌊n/k⌋)` of shard `i % k`, and that block ends at or before `n`;
two such indices fall in a common block `[b * ⌊n/k⌋, (b + 1) * ⌊n/k⌋)` exactly when they are
congruent modulo `k`. -/
theorem hashFunc_shard_block (n k i : Int) (hk : 1 ≤ k) (hi0 : 0 ≤ i) (hi : i < k * (n / k)) :
    PR_Hash_F.hashFunc (PR_Hash_F.ctor n k) i = (i % k) * (n / k) + i / k ∧
    (i % k) * (n / k) ≤ PR_Hash_F.hashFunc (PR_Hash_F.ctor n k) i ∧
    PR_Hash_F.hashFunc (PR_Hash_F.ctor n k) i < (i % k + 1) * (n / k) ∧
    (i % k + 1) * (n / k) ≤ n ∧
    ∀ j : Int, 0 ≤ j → j < k * (n / k) →
      ((∃ b : Int,
          b * (n / k) ≤ PR_Hash_F.hashFunc (PR_Hash_F.ctor n k) i ∧
          PR_Hash_F.hashFunc (PR_Hash_F.ctor n k) i < (b + 1) * (n / k) ∧
          b * (n / k) ≤ PR_Hash_F.hashFunc (PR_Hash_F.ctor n k) j ∧
          PR_Hash_F.hashFunc (PR_Hash_F.ctor n k) j < (b + 1) * (n / k))
        ↔ i % k = j % k) := by
  have hkpos : (0 : Int) < k := by omega
  have hn : 0 ≤ n := by
    by_contra hneg
    have h1 : n / k < 0 := Int.ediv_neg' (by omega) hkpos
    have h2 : k * (n / k) < 0 := Int.mul_neg_of_pos_of_neg hkpos h1
    omega
  obtain ⟨he, hm0, hmk, hd0, hdv, hle⟩ := hashFunc_below n k i hn hk hi0 hi
  have hVpos : 0 < n / k := by omega
  have hexp : (i % k + 1) * (n / k) = (i % k) * (n / k) + n / k := by ring
  have hblk : (i % k + 1) * (n / k) ≤ k * (n / k) :=
    Int.mul_le_mul_of_nonneg_right (by omega) (le_of_lt hVpos)
  refine ⟨he, by omega, by omega, by omega, ?_⟩
  intro j hj0 hj
  obtain ⟨hej, _, _, hjd0, hjdv, _⟩ := hashFunc_below n k j hn hk hj0 hj
  rw [he, hej]
  constructor
  · rintro ⟨b, h1, h2, h3, h4⟩
    have e1 := block_unique (n / k) (i % k) b (i / k) hVpos hd0 hdv h1 h2
    have e2 := block_unique (n / k) (j % k) b (j / k) hVpos hjd0 hjdv h3 h4
    omega
  · intro hij
    have hexpj : (j % k + 1) * (n / k) = (j % k) * (n / k) + n / k := by ring
    refine ⟨i % k, by omega, by omega, ?_, ?_⟩
    · rw [hij]; omega
    · rw [hij]; omega

theorem hashFunc_shard_block_witness :
    (1 : Int) ≤ 3 ∧ (0 : Int) ≤ 4 ∧ (4 : Int) < 3 * (7 / 3) ∧
    PR_Hash_F.hashFunc (PR_Hash_F.ctor 7 3) 4 = (4 % 3) * (7 / 3) + 4 / 3 :=
  ⟨by decide, by decide, by decide,
    (hashFunc_shard_block 7 3 4 (by decide) (by decide) (by decide)).1⟩

theorem updateAtomic_eq_update {n : Nat} (P : Fin n → Int) (s : Int) (d : Fin n) :
    BFS_F.updateAtomic P s d = BFS_F.update P s d := rfl

theorem update_fst {n : Nat} (P : Fin n → Int) (s : Int) (d : Fin n) :
    (BFS_F.update P s d).1 = decide (P d = -1) := by
  unfold BFS_F.update; by_cases h : P d = -1 <;> simp [h]

theorem update_snd_apply {n : Nat} (P : Fin n → Int) (s : Int) (d v : Fin n) :
    (BFS_F.update P s d).2 v = if P d = -1 ∧ v = d then s else P v := by
  unfold BFS_F.update
  by_cases h : P d = -1
  · by_cases hv : v = d
    · subst hv; simp [h]
    · simp [h, hv, Function.update_noteq hv]
  · simp [h]

/-- C3. `updateAtomic s d` returns true exactly when `Parents[d] = -1` held before the call; on
true the new array is the old one with slot `d` set to `s` and nothing else changed; on false the
array is unchanged. `update` has the same result and effect on every state, and `cond d` is true
exactly when `Parents[d] = -1`. -/
theorem updateAtomic_contract {n : Nat} (P : Fin n → Int) (s : Int) (d : Fin n) :
    ((BFS_F.updateAtomic P s d).1 = true ↔ P d = -1) ∧
    ((BFS_F.updateAtomic P s d).1 = true →
        (BFS_F.updateAtomic P s d).2 d = s ∧
        ∀ v, v ≠ d → (BFS_F.updateAtomic P s d).2 v = P v) ∧
    ((BFS_F.updateAtomic P s d).1 = false → (BFS_F.updateAtomic P s d).2 = P) ∧
    BFS_F.update P s d = BFS_F.updateAtomic P s d ∧
    (BFS_F.cond P d = true ↔ P d = -1) := by
  rw [updateAtomic_eq_update]
  refine ⟨?_, ?_, ?_, rfl, ?_⟩
  · rw [update_fst]; simp
  · rw [update_fst]
    intro h
    have h' : P d = -1 := by simpa using h
    refine ⟨?_, ?_⟩
    · rw [update_snd_apply]; simp [h']
    · intro v hv; rw [update_snd_apply]; simp [hv]
  · rw [update_fst]
    intro h
    have h' : ¬ P d = -1 := by simpa using h
    funext v
    rw [update_snd_apply]; simp [h']
  · unfold BFS_F.cond; simp

theorem call_run_eq {n : Nat} (c : Call n) (P : Fin n → Int) :
    c.run P = BFS_F.update P c.src c.dst := by
  cases c <;> rfl

theorem call_run_keep {n : Nat} (c : Call n) (P : Fin n → Int) (v : Fin n) (hv : P v ≠ -1) :
    (c.run P).2 v = P v := by
  rw [call_run_eq, update_snd_apply]
  by_cases h : P c.dst = -1 ∧ v = c.dst
  · obtain ⟨h1, h2⟩ := h
    subst h2; exact absurd h1 hv
  · rw [if_neg h]

theorem runCalls_keep {n : Nat} (cs : List (Call n)) :
    ∀ (P : Fin n → Int) (v : Fin n), P v ≠ -1 → runCalls P cs v = P v := by
  induction cs with
  | nil => intro P v _; rfl
  | cons c cs ih =>
    intro P v hv
    have h1 := call_run_keep c P v hv
    show runCalls (c.run P).2 cs v = P v
    rw [ih (c.run P).2 v (by rw [h1]; exact hv), h1]

theorem runCalls_append {n : Nat} (P : Fin n → Int) (a b : List (Call n)) :
    runCalls P (a ++ b) = runCalls (runCalls P a) b := by
  unfold runCalls; rw [List.foldl_append]

theorem runCalls_cons {n : Nat} (P : Fin n → Int) (c : Call n) (b : List (Call n)) :
    runCalls P (c :: b) = runCalls (c.run P).2 b := rfl

/-- C4, as the code behaves. Write-once parent slots: for every parent array and every finite
sequence of `update` / `updateAtomic` calls with arbitrary arguments, a slot whose value is
non-negative after some prefix of the sequence holds that same value after every later call; and
whenever a call changes a slot, the slot held `-1` before, the call is a successful update on
that slot, the new value is the call's source, and every earlier successful update on the slot
had source `-1`. -/
theorem write_once_slots {n : Nat} (P : Fin n → Int) (cs later : List (Call n)) (c : Call n)
    (v : Fin n) :
    (0 ≤ runCalls P cs v → runCalls P (cs ++ later) v = runCalls P cs v) ∧
    ((c.run (runCalls P cs)).2 v ≠ runCalls P cs v →
      runCalls P cs v = -1 ∧ c.dst = v ∧ (c.run (runCalls P cs)).1 = true ∧
      (c.run (runCalls P cs)).2 v = c.src ∧
      ∀ (a : List (Call n)) (c' : Call n) (b : List (Call n)), cs = a ++ c' :: b →
        c'.dst = v → (c'.run (runCalls P a)).1 = true → c'.src = -1) := by
  constructor
  · intro h
    rw [runCalls_append]
    exact runCalls_keep later _ v (by omega)
  · intro hch
    have hq : runCalls P cs v = -1 := by
      by_contra hne
      exact hch (call_run_keep c _ v hne)
    rw [call_run_eq] at hch ⊢
    rw [update_snd_apply] at hch ⊢
    have hcond : runCalls P cs c.dst = -1 ∧ v = c.dst := by
      by_contra hn
      rw [if_neg hn] at hch
      exact hch rfl
    refine ⟨hq, hcond.2.symm, ?_, ?_, ?_⟩
    · rw [update_fst]; simp [hcond.1]
    · rw [if_pos hcond]
    · intro a c' b hcs hd hs
      by_contra hsrc
      rw [call_run_eq, update_fst] at hs
      have hpre : runCalls P a c'.dst = -1 := by simpa using hs
      have hafter : (c'.run (runCalls P a)).2 v = c'.src := by
        rw [call_run_eq, update_snd_apply, if_pos ⟨hpre, hd.symm⟩]
      have hkeep := runCalls_keep b (c'.run (runCalls P a)).2 v (by rw [hafter]; exact hsrc)
      rw [hcs, runCalls_append, runCalls_cons, hkeep, hafter] at hq
      exact hsrc hq

theorem write_once_slots_witness :
    ((0 : Int) ≤ runCalls (fun _ : Fin 2 => (-1 : Int)) [Call.update 1 0] 0 ∧
      runCalls (fun _ : Fin 2 => (-1 : Int)) ([Call.update 1 0] ++ [Call.updateAtomic 0 0]) 0
        = runCalls (fun _ : Fin 2 => (-1 : Int)) [Call.update 1 0] 0) ∧
    (((Call.updateAtomic 0 1).run (runCalls (fun _ : Fin 2 => (-1 : Int)) [Call.update 1 0])).2 1
        ≠ runCalls (fun _ : Fin 2 => (-1 : Int)) [Call.update 1 0] 1 ∧
      ((Call.updateAtomic 0 1).run
        (runCalls (fun _ : Fin 2 => (-1 : Int)) [Call.update 1 0])).2 1 = 0) :=
  ⟨⟨by decide,
      (write_once_slots (fun _ : Fin 2 => (-1 : Int)) [Call.update 1 0] [Call.updateAtomic 0 0]
        (Call.updateAtomic 0 1) 0).1 (by decide)⟩,
    ⟨by decide,
      ((write_once_slots (fun _ : Fin 2 => (-1 : Int)) [Call.update 1 0] [Call.updateAtomic 0 0]
        (Call.updateAtomic 0 1) 1).2 (by decide)).2.2.2.1⟩⟩

/-- C4, counterexample to "the source of the first successful update": on the one-slot array
`[-1]` the call `update(-1, 0)` succeeds and leaves the slot at `-1`; the later call
`update(3, 0)` succeeds too and changes the slot to 3, which is not the source of the first
successful update on the slot. -/
theorem first_success_not_final :
    ((Call.update (-1) 0).run (runCalls (fun _ : Fin 1 => (-1 : Int)) [])).1 = true ∧
    ((Call.update 3 0).run
      (runCalls (fun _ : Fin 1 => (-1 : Int)) [Call.update (-1) 0])).1 = true ∧
    ((Call.update 3 0).run
      (runCalls (fun _ : Fin 1 => (-1 : Int)) [Call.update (-1) 0])).2 0
      ≠ runCalls (fun _ : Fin 1 => (-1 : Int)) [Call.update (-1) 0] 0 ∧
    ((Call.update 3 0).run
      (runCalls (fun _ : Fin 1 => (-1 : Int)) [Call.update (-1) 0])).2 0
      ≠ (Call.update (-1) (0 : Fin 1)).src := by
  decide

theorem Grow.refl {n : Nat} (a : (Fin n → Int) × (Fin n → Bool)) :
    Grow (fun _ _ => False) a a := by
  refine ⟨fun _ _ => rfl, ?_, ?_, ?_⟩
  · intro v hv; simp [hv]
  · intro v hv h; exact absurd hv h
  · intro v; simp

theorem Grow.trans {n : Nat} {S T : Fin n → Fin n → Prop}
    {a b c : (Fin n → Int) × (Fin n → Bool)} (h1 : Grow S a b) (h2 : Grow T b c) :
    Grow (fun s v => S s v ∨ T s v) a c := by
  obtain ⟨k1, n1, w1, o1⟩ := h1
  obtain ⟨k2, n2, w2, o2⟩ := h2
  refine ⟨?_, ?_, ?_, ?_⟩
  · intro v hv
    have e := k1 v hv
    rw [k2 v (by rw [e]; exact hv), e]
  · intro v hv
    by_cases hb : b.1 v = -1
    · rw [n2 v hb]
      have hS : ¬ ∃ s, S s v := by
        intro hs; exact ((n1 v hv).2 hs) hb
      constructor
      · rintro ⟨s, hs⟩; exact ⟨s, Or.inr hs⟩
      · rintro ⟨s, hs | hs⟩
        · exact absurd ⟨s, hs⟩ hS
        · exact ⟨s, hs⟩
    · have e := k2 v hb
      obtain ⟨s, hs⟩ := (n1 v hv).1 hb
      constructor
      · intro _; exact ⟨s, Or.inl hs⟩
      · intro _; rw [e]; exact hb
  · intro v hv hc
    by_cases hb : b.1 v = -1
    · obtain ⟨s, hs, e⟩ := w2 v hb hc
      exact ⟨s, Or.inr hs, e⟩
    · obtain ⟨s, hs, e⟩ := w1 v hv hb
      exact ⟨s, Or.inl hs, by rw [k2 v hb, e]⟩
  · intro v
    rw [o2 v, o1 v]
    constructor
    · rintro (h | h)
      · rcases h with h | ⟨h, s, hs⟩
        · exact Or.inl h
        · exact Or.inr ⟨h, s, Or.inl hs⟩
      · obtain ⟨hb, s, hs⟩ := h
        have ha : a.1 v = -1 := by
          by_contra hne
          exact (by rw [k1 v hne]; exact hne : b.1 v ≠ -1) hb
        exact Or.inr ⟨ha, s, Or.inr hs⟩
    · rintro (h | ⟨ha, s, hs | hs⟩)
      · exact Or.inl (Or.inl h)
      · exact Or.inl (Or.inr ⟨ha, s, hs⟩)
      · by_cases hb : b.1 v = -1
        · exact Or.inr ⟨hb, s, hs⟩
        · exact Or.inl (Or.inr ⟨ha, (n1 v ha).1 hb⟩)

theorem Grow.congr {n : Nat} {S T : Fin n → Fin n → Prop}
    {a b : (Fin n → Int) × (Fin n → Bool)} (h : Grow S a b) (hST : ∀ s v, S s v ↔ T s v) :
    Grow T a b := by
  have : S = T := by funext s v; exact propext (hST s v)
  rw [← this]; exact h

theorem natCast_ne_neg_one (k : Nat) : ((k : Nat) : Int) ≠ -1 := by omega

theorem edgeStep_grow {n : Nat} (s d : Fin n) (a : (Fin n → Int) × (Fin n → Bool)) :
    Grow (fun s' v => s' = s ∧ v = d) a (edgeStep s a d) := by
  unfold edgeStep
  by_cases hc : a.1 d = -1
  · have hcond : BFS_F.cond a.1 d = true := by unfold BFS_F.cond; simp [hc]
    have hfst : (BFS_F.updateAtomic a.1 ((s : Nat) : Int) d).1 = true := by
      rw [updateAtomic_eq_update, update_fst]; simp [hc]
    simp only [hcond, hfst, if_true]
    rw [updateAtomic_eq_update]
    refine ⟨?_, ?_, ?_, ?_⟩
    · intro v hv
      have hvd : v ≠ d := by rintro rfl; exact hv hc
      simp only [update_snd_apply]; simp [hvd]
    · intro v hv
      simp only [update_snd_apply]
      by_cases hvd : v = d
      · subst hvd
        simp [hc, natCast_ne_neg_one]
      · simp [hvd, hv]
    · intro v hv h
      simp only [update_snd_apply] at h ⊢
      by_cases hvd : v = d
      · subst hvd
        exact ⟨s, ⟨rfl, rfl⟩, by simp [hc]⟩
      · simp [hvd, hv] at h
    · intro v
      by_cases hvd : v = d
      · subst hvd
        simp [hc]
      · simp [hvd, Function.update_noteq hvd]
  · have hcond : BFS_F.cond a.1 d = false := by unfold BFS_F.cond; simp [hc]
    simp only [hcond]
    refine ⟨fun _ _ => rfl, ?_, ?_, ?_⟩
    · intro v hv
      have hvd : v ≠ d := by rintro rfl; exact hc hv
      simp [hv, hvd]
    · intro v hv h; exact absurd hv h
    · intro v
      by_cases hvd : v = d
      · subst hvd; simp [hc]
      · simp [hvd]

theorem foldl_edgeStep_grow {n : Nat} (s : Fin n) (l : List (Fin n))
    (a : (Fin n → Int) × (Fin n → Bool)) :
    Grow (fun s' v => s' = s ∧ v ∈ l) a (l.foldl (edgeStep s) a) := by
  induction l generalizing a with
  | nil =>
    simp only [List.foldl_nil]
    exact (Grow.refl a).congr (by simp)
  | cons d l ih =>
    simp only [List.foldl_cons]
    refine ((edgeStep_grow s d a).trans (ih (edgeStep s a d))).congr ?_
    intro s' v
    simp only [List.mem_cons]
    constructor
    · rintro (⟨h1, h2⟩ | ⟨h1, h2⟩)
      · exact ⟨h1, Or.inl h2⟩
      · exact ⟨h1, Or.inr h2⟩
    · rintro ⟨h1, h2 | h2⟩
      · exact Or.inl ⟨h1, h2⟩
      · exact Or.inr ⟨h1, h2⟩

theorem foldl_vertices_grow (G : graph) (F : vertices G.n) (l : List (Fin G.n))
    (a : (Fin G.n → Int) × (Fin G.n → Bool)) :
    Grow (fun s v => s ∈ l ∧ F.b s = true ∧ G.edge s v) a
      (l.foldl (fun a v => if F.b v then (G.outNeighbors v).foldl (edgeStep v) a else a) a) := by
  induction l generalizing a with
  | nil =>
    simp only [List.foldl_nil]
    exact (Grow.refl a).congr (by simp)
  | cons u l ih =>
    simp only [List.foldl_cons]
    by_cases hu : F.b u = true
    · simp only [hu, if_true]
      refine ((foldl_edgeStep_grow u (G.outNeighbors u) a).trans (ih _)).congr ?_
      intro s v
      simp only [List.mem_cons, graph.edge]
      constructor
      · rintro (⟨h1, h2⟩ | ⟨h1, h2, h3⟩)
        · subst h1; exact ⟨Or.inl rfl, hu, h2⟩
        · exact ⟨Or.inr h1, h2, h3⟩
      · rintro ⟨h1 | h1, h2, h3⟩
        · subst h1; exact Or.inl ⟨rfl, h3⟩
        · exact Or.inr ⟨h1, h2, h3⟩
    · simp only [hu]
      refine (ih a).congr ?_
      intro s v
      simp only [List.mem_cons]
      constructor
      · rintro ⟨h1, h2, h3⟩; exact ⟨Or.inr h1, h2, h3⟩
      · rintro ⟨h1 | h1, h2, h3⟩
        · subst h1; exact absurd h2 hu
        · exact ⟨h1, h2, h3⟩

theorem edgeMap_grow (G : graph) (F : vertices G.n) (a : (Fin G.n → Int) × (Fin G.n → Bool)) :
    Grow (fun s v => F.b s = true ∧ G.edge s v) a (edgeMap G F a) := by
  unfold edgeMap
  refine (foldl_vertices_grow G F (List.finRange G.n) a).congr ?_
  intro s v
  simp [List.mem_finRange]

theorem walk_zero_iff (G : graph) (src v : Fin G.n) : Walk G src 0 v ↔ v = src := by
  constructor
  · intro h; cases h; rfl
  · rintro rfl; exact Walk.zero

theorem walk_succ_iff (G : graph) (src v : Fin G.n) (k : Nat) :
    Walk G src (k + 1) v ↔ ∃ u, Walk G src k u ∧ G.edge u v := by
  constructor
  · intro h; cases h with
    | step hw he => exact ⟨_, hw, he⟩
  · rintro ⟨u, hw, he⟩; exact Walk.step hw he

theorem layer_zero_iff (G : graph) (src v : Fin G.n) : Layer G src 0 v ↔ v = src := by
  unfold Layer
  rw [walk_zero_iff]
  constructor
  · exact fun h => h.1
  · intro h; exact ⟨h, fun k hk => absurd hk (Nat.not_lt_zero k)⟩

theorem within_zero_iff (G : graph) (src v : Fin G.n) : Within G src 0 v ↔ v = src := by
  unfold Within
  constructor
  · rintro ⟨k, hk, hw⟩
    have : k = 0 := by omega
    subst this
    exact (walk_zero_iff G src v).1 hw
  · rintro rfl; exact ⟨0, le_refl 0, Walk.zero⟩

theorem not_within_iff (G : graph) (src v : Fin G.n) (r : Nat) :
    ¬ Within G src r v ↔ ∀ k, k < r + 1 → ¬ Walk G src k v := by
  unfold Within
  constructor
  · intro h k hk hw; exact h ⟨k, by omega, hw⟩
  · rintro h ⟨k, hk, hw⟩; exact h k (by omega) hw

theorem layer_succ_iff (G : graph) (src v : Fin G.n) (r : Nat) :
    Layer G src (r + 1) v ↔ ¬ Within G src r v ∧ ∃ u, Layer G src r u ∧ G.edge u v := by
  rw [not_within_iff]
  unfold Layer
  constructor
  · rintro ⟨hw, hmin⟩
    refine ⟨hmin, ?_⟩
    obtain ⟨u, hu, he⟩ := (walk_succ_iff G src v r).1 hw
    refine ⟨u, ⟨hu, ?_⟩, he⟩
    intro k hk hwk
    exact hmin (k + 1) (by omega) (Walk.step hwk he)
  · rintro ⟨hmin, u, ⟨hu, _⟩, he⟩
    exact ⟨Walk.step hu he, hmin⟩

theorem walk_layer (G : graph) (src v : Fin G.n) (k : Nat) (h : Walk G src k v) :
    ∃ j, j ≤ k ∧ Layer G src j v := by
  induction k using Nat.strong_induction_on with
  | _ k ih =>
    by_cases hmin : ∀ j, j < k → ¬ Walk G src j v
    · exact ⟨k, le_refl k, h, hmin⟩
    · push_neg at hmin
      obtain ⟨j, hj, hw⟩ := hmin
      obtain ⟨i, hi, hl⟩ := ih j hj hw
      exact ⟨i, by omega, hl⟩

theorem layer_unique (G : graph) (src v : Fin G.n) (j k : Nat)
    (hj : Layer G src j v) (hk : Layer G src k v) : j = k := by
  rcases lt_trichotomy j k with h | h | h
  · exact absurd hj.1 (hk.2 j h)
  · exact h
  · exact absurd hk.1 (hj.2 k h)

theorem within_succ_iff (G : graph) (src v : Fin G.n) (r : Nat) :
    Within G src (r + 1) v ↔ Within G src r v ∨ ∃ u, Layer G src r u ∧ G.edge u v := by
  constructor
  · rintro ⟨k, hk, hw⟩
    by_cases hkr : k ≤ r
    · exact Or.inl ⟨k, hkr, hw⟩
    · have hk1 : k = r + 1 := by omega
      subst hk1
      obtain ⟨u, hu, he⟩ := (walk_succ_iff G src v r).1 hw
      obtain ⟨j, hj, hl⟩ := walk_layer G src u r hu
      by_cases hjr : j = r
      · subst hjr; exact Or.inr ⟨u, hl, he⟩
      · exact Or.inl ⟨j + 1, by omega, Walk.step hl.1 he⟩
  · rintro (⟨k, hk, hw⟩ | ⟨u, hl, he⟩)
    · exact ⟨k, by omega, hw⟩
    · exact ⟨r + 1, le_refl _, Walk.step hl.1 he⟩

theorem layer_pred_nonempty (G : graph) (src v : Fin G.n) (r : Nat)
    (h : Layer G src (r + 1) v) : ∃ u, Layer G src r u := by
  obtain ⟨_, u, hu, _⟩ := (layer_succ_iff G src v r).1 h
  exact ⟨u, hu⟩

theorem layer_empty_mono (G : graph) (src : Fin G.n) (r : Nat)
    (h : ∀ u, ¬ Layer G src r u) (k : Nat) (hk : r ≤ k) (v : Fin G.n) : ¬ Layer G src k v := by
  induction k generalizing v with
  | zero =>
    have : r = 0 := by omega
    subst this; exact h v
  | succ k ih =>
    by_cases hrk : r = k + 1
    · subst hrk; exact h v
    · intro hl
      obtain ⟨u, hu⟩ := layer_pred_nonempty G src v k hl
      exact ih (by omega) u hu

theorem reach_iff_walk (G : graph) (src v : Fin G.n) :
    Relation.ReflTransGen G.edge src v ↔ ∃ k, Walk G src k v := by
  constructor
  · intro h
    induction h with
    | refl => exact ⟨0, Walk.zero⟩
    | tail _ he ih =>
      obtain ⟨k, hk⟩ := ih
      exact ⟨k + 1, Walk.step hk he⟩
  · rintro ⟨k, hk⟩
    induction hk with
    | zero => exact Relation.ReflTransGen.refl
    | step _ he ih => exact Relation.ReflTransGen.tail ih he

theorem inv_init (G : graph) (src : Fin G.n) : RoundInv G src 0 (stateAt G src 0) := by
  have hb : ∀ v, (stateAt G src 0).Frontier.b v = true ↔ v = src := by
    intro v
    simp only [stateAt, Function.iterate_zero, id_eq, BFSWorker_init, vertices.setBit,
      vertices.calculateNumOfNonZero]
    by_cases h : v = src
    · subst h; simp
    · simp [h, Function.update_noteq h]
  have hp : ∀ v, (stateAt G src 0).parents v ≠ -1 ↔ v = src := by
    intro v
    simp only [stateAt, Function.iterate_zero, id_eq, BFSWorker_init]
    by_cases h : v = src
    · subst h; simp [natCast_ne_neg_one]
    · simp [h, Function.update_noteq h]
  refine ⟨rfl, ?_, rfl, ?_, ?_, ?_, ?_⟩
  · intro v; rw [hb, layer_zero_iff]
  · intro v; rw [hp, within_zero_iff]
  · simp [stateAt, BFSWorker_init]
  · intro v hv h; exact absurd ((hp v).1 h) hv
  · have hm : (stateAt G src 0).Frontier.m
        = (Finset.univ.filter (fun v => (stateAt G src 0).Frontier.b v = true)).card := rfl
    have h0 : (stateAt G src 0).numVisited = 0 := rfl
    rw [hm, h0, Nat.zero_add]
    unfold visitedCount
    congr 1
    apply Finset.filter_congr
    intro v _
    rw [hb, hp]

theorem card_visited_grow {n : Nat} (P P' : Fin n → Int) (O' : Fin n → Bool)
    (h1 : ∀ v, P' v ≠ -1 ↔ (P v ≠ -1 ∨ O' v = true))
    (h2 : ∀ v, O' v = true → P v = -1) :
    visitedCount P' = visitedCount P + (Finset.univ.filter (fun v => O' v = true)).card := by
  unfold visitedCount
  rw [← Finset.card_union_of_disjoint]
  · congr 1
    ext v
    simp only [Finset.mem_filter, Finset.mem_univ, true_and, Finset.mem_union]
    exact h1 v
  · rw [Finset.disjoint_filter]
    intro v _ hv ho
    exact hv (h2 v ho)

theorem inv_step (G : graph) (src : Fin G.n) (r : Nat) (st : BFSState G.n)
    (h : RoundInv G src r st) : RoundInv G src (r + 1) (roundBody G st) := by
  have g := edgeMap_grow G st.Frontier (st.parents, fun _ => false)
  obtain ⟨keep, new, who, out⟩ := g
  simp only at keep new who out
  have hS : ∀ v, (∃ s, st.Frontier.b s = true ∧ G.edge s v) ↔
      ∃ u, Layer G src r u ∧ G.edge u v := by
    intro v
    constructor
    · rintro ⟨s, hs, he⟩; exact ⟨s, (h.front s).1 hs, he⟩
    · rintro ⟨s, hs, he⟩; exact ⟨s, (h.front s).2 hs, he⟩
  have hunv : ∀ v, st.parents v = -1 ↔ ¬ Within G src r v := by
    intro v
    rw [← h.visited v]; simp
  have hfront : ∀ v, (edgeMap G st.Frontier (st.parents, fun _ => false)).2 v = true ↔
      Layer G src (r + 1) v := by
    intro v
    rw [out v, layer_succ_iff, hS, hunv]
    simp
  have hvis : ∀ v, (edgeMap G st.Frontier (st.parents, fun _ => false)).1 v ≠ -1 ↔
      (st.parents v ≠ -1 ∨
        (edgeMap G st.Frontier (st.parents, fun _ => false)).2 v = true) := by
    intro v
    by_cases hv : st.parents v = -1
    · rw [new v hv, out v]; simp [hv]
    · rw [keep v hv]; simp [hv]
  refine ⟨?_, ?_, rfl, ?_, ?_, ?_, ?_⟩
  · simp [roundBody, h.iter]
  · exact hfront
  · intro v
    show (edgeMap G st.Frontier (st.parents, fun _ => false)).1 v ≠ -1 ↔ _
    rw [hvis, hfront, within_succ_iff, h.visited v]
    constructor
    · rintro (hw | hl)
      · exact Or.inl hw
      · exact Or.inr ((layer_succ_iff G src v r).1 hl).2
    · rintro (hw | hl)
      · exact Or.inl hw
      · by_cases hw : Within G src r v
        · exact Or.inl hw
        · exact Or.inr ((layer_succ_iff G src v r).2 ⟨hw, hl⟩)
  · show (edgeMap G st.Frontier (st.parents, fun _ => false)).1 src = _
    rw [keep src (by rw [h.root]; exact natCast_ne_neg_one _), h.root]
  · intro v hv hne
    change (edgeMap G st.Frontier (st.parents, fun _ => false)).1 v ≠ -1 at hne
    show ∃ p k, (edgeMap G st.Frontier (st.parents, fun _ => false)).1 v = _ ∧ _
    by_cases hp : st.parents v = -1
    · obtain ⟨s, ⟨hs, he⟩, e⟩ := who v hp hne
      have hl := (h.front s).1 hs
      refine ⟨s, r, e, he, hl, ?_⟩
      exact (layer_succ_iff G src v r).2 ⟨(hunv v).1 hp, s, hl, he⟩
    · rw [keep v hp]
      exact h.tree v hv hp
  · show st.numVisited + st.Frontier.numNonzeros +
        (Finset.univ.filter
          (fun v => (edgeMap G st.Frontier (st.parents, fun _ => false)).2 v = true)).card
        = visitedCount (edgeMap G st.Frontier (st.parents, fun _ => false)).1
    rw [card_visited_grow st.parents _ _ hvis, ← h.total]
    · rfl
    · intro v hv
      rw [out v] at hv
      rcases hv with hv | hv
      · simp at hv
      · exact hv.1

theorem stateAt_succ (G : graph) (src : Fin G.n) (r : Nat) :
    stateAt G src (r + 1) = roundBody G (stateAt G src r) := by
  unfold stateAt
  rw [Function.iterate_succ_apply']

theorem inv_stateAt (G : graph) (src : Fin G.n) (r : Nat) : RoundInv G src r (stateAt G src r) := by
  induction r with
  | zero => exact inv_init G src
  | succ r ih => rw [stateAt_succ]; exact inv_step G src r _ ih

theorem roundLoop_exit (G : graph) (R : Nat) :
    ∀ (fuel : Nat) (st : BFSState G.n), R ≤ fuel →
      (∀ r, r < R → loopCond ((roundBody G)^[r] st) = true) →
      loopCond ((roundBody G)^[R] st) = false →
      roundLoop G fuel st = some ((roundBody G)^[R] st) := by
  induction R with
  | zero =>
    intro fuel st _ _ hR
    simp only [Function.iterate_zero, id_eq] at hR ⊢
    cases fuel <;> simp [roundLoop, hR]
  | succ R ih =>
    intro fuel st hf hlt hR
    have h0 : loopCond st = true := hlt 0 (Nat.succ_pos R)
    cases fuel with
    | zero => omega
    | succ f =>
      simp only [roundLoop, h0, if_true]
      rw [Function.iterate_succ_apply]
      apply ih f (roundBody G st) (by omega)
      · intro r hr
        rw [← Function.iterate_succ_apply]
        exact hlt (r + 1) (by omega)
      · rw [← Function.iterate_succ_apply]; exact hR

theorem BFS_eq_roundLoop (G : graph) (src : Fin G.n) (fuel : Nat) :
    BFS G src fuel = roundLoop G fuel (stateAt G src 0) := rfl

theorem iterate_stateAt (G : graph) (src : Fin G.n) (r : Nat) :
    (roundBody G)^[r] (stateAt G src 0) = stateAt G src r := rfl

theorem frontier_count_pos (G : graph) (src : Fin G.n) (r : Nat)
    (h : loopCond (stateAt G src r) = true) : 1 ≤ (stateAt G src r).Frontier.m := by
  have inv := inv_stateAt G src r
  cases r with
  | zero =>
    rw [inv.count]
    apply Finset.card_pos.2
    exact ⟨src, by
      simp only [Finset.mem_filter, Finset.mem_univ, true_and]
      exact (inv.front src).2 ((layer_zero_iff G src src).2 rfl)⟩
  | succ r =>
    have hi : (stateAt G src (r + 1)).currIter = r + 1 := inv.iter
    simp only [loopCond, vertices.isEmpty, hi, Bool.or_eq_true, Bool.not_eq_true',
      beq_eq_false_iff_ne, beq_iff_eq] at h
    omega

theorem numVisited_succ (G : graph) (src : Fin G.n) (r : Nat) :
    (stateAt G src (r + 1)).numVisited
      = (stateAt G src r).numVisited + (stateAt G src r).Frontier.numNonzeros := by
  rw [stateAt_succ]; rfl

theorem numVisited_ge (G : graph) (src : Fin G.n) (r : Nat)
    (h : ∀ j, j < r → loopCond (stateAt G src j) = true) :
    r ≤ (stateAt G src r).numVisited := by
  induction r with
  | zero => exact Nat.zero_le _
  | succ r ih =>
    rw [numVisited_succ]
    have h1 := ih (fun j hj => h j (by omega))
    have h2 := frontier_count_pos G src r (h r (by omega))
    unfold vertices.numNonzeros
    omega

theorem visitedCount_le {n : Nat} (P : Fin n → Int) : visitedCount P ≤ n := by
  unfold visitedCount
  calc (Finset.univ.filter (fun v => P v ≠ -1)).card
      ≤ (Finset.univ : Finset (Fin n)).card := Finset.card_le_card (Finset.filter_subset _ _)
    _ = n := by simp

theorem loopCond_bound (G : graph) (src : Fin G.n) (r : Nat)
    (h : ∀ j, j ≤ r → loopCond (stateAt G src j) = true) : r + 1 ≤ G.n := by
  have h1 := numVisited_ge G src r (fun j hj => h j (by omega))
  have h2 := frontier_count_pos G src r (h r (le_refl r))
  have h3 := (inv_stateAt G src r).total
  have h4 := visitedCount_le (stateAt G src r).parents
  omega

theorem exists_exit (G : graph) (src : Fin G.n) :
    ∃ R, 1 ≤ R ∧ R ≤ G.n ∧ loopCond (stateAt G src R) = false ∧
      ∀ r, r < R → loopCond (stateAt G src r) = true := by
  have hex : ∃ R, loopCond (stateAt G src R) = false := by
    by_contra hne
    push_neg at hne
    have := loopCond_bound G src G.n (fun j _ => by simpa using hne j)
    omega
  refine ⟨Nat.find hex, ?_, ?_, Nat.find_spec hex, ?_⟩
  · rcases Nat.eq_zero_or_pos (Nat.find hex) with h0 | h0
    · have hs := Nat.find_spec hex
      rw [h0] at hs
      have : loopCond (stateAt G src 0) = true := by
        simp [loopCond, (inv_stateAt G src 0).iter]
      rw [this] at hs; exact absurd hs (by decide)
    · exact h0
  · by_contra hgt
    have := loopCond_bound G src G.n (fun j hj => by
      have := Nat.find_min hex (show j < Nat.find hex by omega)
      simpa using this)
    omega
  · intro r hr
    have := Nat.find_min hex hr
    simpa using this

theorem BFS_exit (G : graph) (src : Fin G.n) :
    ∃ R, 1 ≤ R ∧ R ≤ G.n ∧ loopCond (stateAt G src R) = false ∧
      (∀ r, r < R → loopCond (stateAt G src r) = true) ∧
      ∀ fuel, R ≤ fuel → BFS G src fuel = some (stateAt G src R) := by
  obtain ⟨R, h1, h2, h3, h4⟩ := exists_exit G src
  refine ⟨R, h1, h2, h3, h4, ?_⟩
  intro fuel hf
  rw [BFS_eq_roundLoop, ← iterate_stateAt G src R]
  exact roundLoop_exit G R fuel (stateAt G src 0) hf h4 h3

theorem exit_layer_empty (G : graph) (src : Fin G.n) (R : Nat)
    (h : loopCond (stateAt G src R) = false) (v : Fin G.n) : ¬ Layer G src R v := by
  have inv := inv_stateAt G src R
  intro hl
  have hb := (inv.front v).2 hl
  have hm : (stateAt G src R).Frontier.m = 0 := by
    simp only [loopCond, vertices.isEmpty, Bool.or_eq_false_iff, Bool.not_eq_false',
      beq_iff_eq] at h
    exact h.1
  rw [inv.count] at hm
  have := Finset.card_eq_zero.1 hm
  have hv : v ∈ Finset.univ.filter (fun v => (stateAt G src R).Frontier.b v = true) := by
    simp [hb]
  rw [this] at hv
  exact absurd hv (Finset.not_mem_empty v)

theorem layer_lt_exit (G : graph) (src : Fin G.n) (R : Nat)
    (h : loopCond (stateAt G src R) = false) (v : Fin G.n) (k : Nat)
    (hl : Layer G src k v) : k < R := by
  by_contra hge
  exact layer_empty_mono G src R (exit_layer_empty G src R h) k (by omega) v hl

theorem exit_visited_iff_reach (G : graph) (src : Fin G.n) (R : Nat)
    (h : loopCond (stateAt G src R) = false) (v : Fin G.n) :
    (stateAt G src R).parents v ≠ -1 ↔ Relation.ReflTransGen G.edge src v := by
  rw [(inv_stateAt G src R).visited v, reach_iff_walk]
  constructor
  · rintro ⟨k, _, hw⟩; exact ⟨k, hw⟩
  · rintro ⟨k, hw⟩
    obtain ⟨j, _, hl⟩ := walk_layer G src v k hw
    have := layer_lt_exit G src R h v j hl
    exact ⟨j, by omega, hl.1⟩

/-- C5. Reachability correctness of the sequential traversal: for every graph and every source,
the round loop exits (for every round bound of at least `n`), and in the final state
`parent[v] != -1` for every vertex reachable from the source and `parent[v] == -1` for every
vertex not reachable from it. -/
theorem reachability_correct (G : graph) (src : Fin G.n) :
    ∃ final : BFSState G.n,
      (∀ fuel, G.n ≤ fuel → BFS G src fuel = some final) ∧
      ∀ v : Fin G.n,
        (Relation.ReflTransGen G.edge src v → final.parents v ≠ -1) ∧
        (¬ Relation.ReflTransGen G.edge src v → final.parents v = -1) := by
  obtain ⟨R, _, hRn, hexit, _, hrun⟩ := BFS_exit G src
  refine ⟨stateAt G src R, fun fuel hf => hrun fuel (by omega), ?_⟩
  intro v
  have hiff := exit_visited_iff_reach G src R hexit v
  refine ⟨hiff.2, ?_⟩
  intro hn
  by_contra hne
  exact hn (hiff.1 hne)

/-- C6. BFS-order property of the sequential traversal: the loop exits in a state that is the
state at the top of round `currIter`; a vertex is in the frontier at the top of round `j`
(rounds counted from 0) exactly when its BFS distance from the source is `j`, so it is in the
frontier of at most one round; and every visited non-source vertex `v` has as final parent a
vertex `p` with an edge `p → v` such that `p` was in the frontier of round `k` and `v` in the
frontier of round `k + 1`, both among the rounds the loop executed. -/
theorem bfs_order (G : graph) (src : Fin G.n) :
    ∃ final : BFSState G.n,
      (∀ fuel, G.n ≤ fuel → BFS G src fuel = some final) ∧
      final = stateAt G src final.currIter ∧
      (∀ (u : Fin G.n) (j : Nat), (stateAt G src j).Frontier.b u = true ↔ Layer G src j u) ∧
      (∀ (u : Fin G.n) (i j : Nat), (stateAt G src i).Frontier.b u = true →
        (stateAt G src j).Frontier.b u = true → i = j) ∧
      ∀ v : Fin G.n, v ≠ src → final.parents v ≠ -1 →
        ∃ (p : Fin G.n) (k : Nat),
          final.parents v = ((p : Nat) : Int) ∧ G.edge p v ∧ k + 1 < final.currIter ∧
          (stateAt G src k).Frontier.b p = true ∧
          (stateAt G src (k + 1)).Frontier.b v = true := by
  obtain ⟨R, _, hRn, hexit, _, hrun⟩ := BFS_exit G src
  have hiter : (stateAt G src R).currIter = R := (inv_stateAt G src R).iter
  have hfront : ∀ (u : Fin G.n) (j : Nat),
      (stateAt G src j).Frontier.b u = true ↔ Layer G src j u :=
    fun u j => (inv_stateAt G src j).front u
  refine ⟨stateAt G src R, fun fuel hf => hrun fuel (by omega), ?_, hfront, ?_, ?_⟩
  · rw [hiter]
  · intro u i j hi hj
    exact layer_unique G src u i j ((hfront u i).1 hi) ((hfront u j).1 hj)
  · intro v hv hne
    obtain ⟨p, k, hp, he, hlp, hlv⟩ := (inv_stateAt G src R).tree v hv hne
    refine ⟨p, k, hp, he, ?_, (hfront p k).2 hlp, (hfront v (k + 1)).2 hlv⟩
    rw [hiter]
    exact layer_lt_exit G src R hexit v (k + 1) hlv

theorem hashFunc_single_shard (n i : Int) (hi0 : 0 ≤ i) :
    PR_Hash_F.hashFunc (PR_Hash_F.ctor n 1) i = i := by
  unfold PR_Hash_F.hashFunc PR_Hash_F.ctor
  by_cases h : i ≥ 1 * Int.tdiv n 1
  · simp only [h, if_true]
  · simp only [h, if_false]
    rw [Int.tmod_eq_emod hi0 (by decide), Int.tdiv_eq_ediv hi0 (by decide)]
    simp

theorem BFS_pathGraph_exit (fuel : Nat) (h : 4 ≤ fuel) :
    BFS pathGraph (0 : Fin 4) fuel = some (stateAt pathGraph (0 : Fin 4) 4) := by
  rw [BFS_eq_roundLoop, ← iterate_stateAt pathGraph (0 : Fin 4) 4]
  apply roundLoop_exit pathGraph 4 fuel _ h
  · intro r hr
    have : r = 0 ∨ r = 1 ∨ r = 2 ∨ r = 3 := by omega
    rcases this with rfl | rfl | rfl | rfl <;> decide
  · decide

theorem BFS_pathGraphDirected_exit (fuel : Nat) (h : 4 ≤ fuel) :
    BFS pathGraphDirected (0 : Fin 4) fuel = some (stateAt pathGraphDirected (0 : Fin 4) 4) := by
  rw [BFS_eq_roundLoop, ← iterate_stateAt pathGraphDirected (0 : Fin 4) 4]
  apply roundLoop_exit pathGraphDirected 4 fuel _ h
  · intro r hr
    have : r = 0 ∨ r = 1 ∨ r = 2 ∨ r = 3 := by omega
    rcases this with rfl | rfl | rfl | rfl <;> decide
  · decide

/-- C7, as the code behaves. On the path graph 0-1-2-3 from source 0 (one node, where the hash is
the identity), with symmetric or with directed edges, the traversal ends with parents
`[0, 0, 1, 2]` and the reported round counter `currIter` is 4; for every graph and source the
reported round count is one more than the largest BFS distance from the source to a reached
vertex. -/
theorem path_scenario_rounds :
    (∀ n i : Int, 0 ≤ i → PR_Hash_F.hashFunc (PR_Hash_F.ctor n 1) i = i) ∧
    (∀ fuel, 4 ≤ fuel → report (BFS pathGraph (0 : Fin 4) fuel) = some ([0, 0, 1, 2], 4, 4)) ∧
    (∀ fuel, 4 ≤ fuel →
      report (BFS pathGraphDirected (0 : Fin 4) fuel) = some ([0, 0, 1, 2], 4, 4)) ∧
    ∀ (G : graph) (src : Fin G.n),
      ∃ final : BFSState G.n,
        (∀ fuel, G.n ≤ fuel → BFS G src fuel = some final) ∧
        1 ≤ final.currIter ∧
        (∃ v, Layer G src (final.currIter - 1) v) ∧
        ∀ (v : Fin G.n) (k : Nat), Layer G src k v → k ≤ final.currIter - 1 := by
  refine ⟨hashFunc_single_shard, ?_, ?_, ?_⟩
  · intro fuel hf
    rw [BFS_pathGraph_exit fuel hf]
    decide
  · intro fuel hf
    rw [BFS_pathGraphDirected_exit fuel hf]
    decide
  · intro G src
    obtain ⟨R, hR1, hRn, hexit, hcont, hrun⟩ := BFS_exit G src
    have hiter : (stateAt G src R).currIter = R := (inv_stateAt G src R).iter
    refine ⟨stateAt G src R, fun fuel hf => hrun fuel (by omega), ?_, ?_, ?_⟩
    · rw [hiter]; exact hR1
    · rw [hiter]
      have hc := hcont (R - 1) (by omega)
      have hpos := frontier_count_pos G src (R - 1) hc
      have inv := inv_stateAt G src (R - 1)
      rw [inv.count] at hpos
      obtain ⟨v, hv⟩ := Finset.card_pos.1 hpos
      simp only [Finset.mem_filter, Finset.mem_univ, true_and] at hv
      exact ⟨v, (inv.front v).1 hv⟩
    · intro v k hl
      rw [hiter]
      have := layer_lt_exit G src R hexit v k hl
      omega

/-- C7, counterexample to the stated round count: on the path graph from source 0, with symmetric
or with directed edges, no run of the loop ends with `currIter = 3`. -/
theorem path_rounds_not_three :
    (¬ ∃ (fuel : Nat) (final : BFSState 4),
        BFS pathGraph (0 : Fin 4) fuel = some final ∧ final.currIter = 3) ∧
    (¬ ∃ (fuel : Nat) (final : BFSState 4),
        BFS pathGraphDirected (0 : Fin 4) fuel = some final ∧ final.currIter = 3) := by
  constructor
  · rintro ⟨fuel, final, hrun, h3⟩
    by_cases hf : 4 ≤ fuel
    · rw [BFS_pathGraph_exit fuel hf] at hrun
      simp only [Option.some.injEq] at hrun
      subst hrun
      revert h3
      decide
    · have : fuel = 0 ∨ fuel = 1 ∨ fuel = 2 ∨ fuel = 3 := by omega
      have hnone : (BFS pathGraph (0 : Fin 4) fuel).isSome = false := by
        rcases this with rfl | rfl | rfl | rfl <;> decide
      rw [hrun] at hnone
      exact absurd hnone (by simp)
  · rintro ⟨fuel, final, hrun, h3⟩
    by_cases hf : 4 ≤ fuel
    · rw [BFS_pathGraphDirected_exit fuel hf] at hrun
      simp only [Option.some.injEq] at hrun
      subst hrun
      revert h3
      decide
    · have : fuel = 0 ∨ fuel = 1 ∨ fuel = 2 ∨ fuel = 3 := by omega
      have hnone : (BFS pathGraphDirected (0 : Fin 4) fuel).isSome = false := by
        rcases this with rfl | rfl | rfl | rfl <;> decide
      rw [hrun] at hnone
      exact absurd hnone (by simp)

theorem numVisited_eq_sum (G : graph) (src : Fin G.n) (R : Nat) :
    (stateAt G src R).numVisited
      = ∑ r in Finset.range R, (stateAt G src r).Frontier.numNonzeros := by
  induction R with
  | zero => rfl
  | succ R ih => rw [numVisited_succ, Finset.sum_range_succ, ih]

theorem BFS_twoComponents_exit (fuel : Nat) (h : 2 ≤ fuel) :
    BFS twoComponents (0 : Fin 4) fuel = some (stateAt twoComponents (0 : Fin 4) 2) := by
  rw [BFS_eq_roundLoop, ← iterate_stateAt twoComponents (0 : Fin 4) 2]
  apply roundLoop_exit twoComponents 2 fuel _ h
  · intro r hr
    have : r = 0 ∨ r = 1 := by omega
    rcases this with rfl | rfl <;> decide
  · decide

/-- C8. Visited count of the sequential traversal: for every graph and source the loop exits, and
the final `numVisited` is the sum over the executed rounds of the frontier's non-zero count at
the top of the round, equals the number of vertices with `parent[v] != -1` at completion, and
equals the number of vertices reachable from the source. It is 4 on the path graph 0-1-2-3 and 2
on the graph with components {0,1} and {2,3}, both from source 0. -/
theorem visited_count (G : graph) (src : Fin G.n) :
    (∃ final : BFSState G.n,
      (∀ fuel, G.n ≤ fuel → BFS G src fuel = some final) ∧
      final.numVisited
        = ∑ r in Finset.range final.currIter, (stateAt G src r).Frontier.numNonzeros ∧
      final.numVisited = visitedCount final.parents ∧
      final.numVisited = Set.ncard {v : Fin G.n | Relation.ReflTransGen G.edge src v}) ∧
    (∀ fuel, 4 ≤ fuel →
      report (BFS pathGraph (0 : Fin 4) fuel) = some ([0, 0, 1, 2], 4, 4)) ∧
    (∀ fuel, 2 ≤ fuel →
      report (BFS twoComponents (0 : Fin 4) fuel) = some ([0, 0, -1, -1], 2, 2)) := by
  refine ⟨?_, ?_, ?_⟩
  · obtain ⟨R, _, hRn, hexit, _, hrun⟩ := BFS_exit G src
    have inv := inv_stateAt G src R
    have hm : (stateAt G src R).Frontier.m = 0 := by
      have h := hexit
      simp only [loopCond, vertices.isEmpty, Bool.or_eq_false_iff, Bool.not_eq_false',
        beq_iff_eq] at h
      exact h.1
    have hcount : (stateAt G src R).numVisited = visitedCount (stateAt G src R).parents := by
      have := inv.total
      omega
    refine ⟨stateAt G src R, fun fuel hf => hrun fuel (by omega), ?_, hcount, ?_⟩
    · rw [inv.iter]; exact numVisited_eq_sum G src R
    · rw [hcount]
      unfold visitedCount
      rw [← Set.ncard_coe_Finset]
      congr 1
      ext v
      simp only [Finset.coe_filter, Finset.mem_univ, true_and, Set.mem_setOf_eq]
      exact exit_visited_iff_reach G src R hexit v
  · intro fuel hf
    rw [BFS_pathGraph_exit fuel hf]
    decide
  · intro fuel hf
    rw [BFS_twoComponents_exit fuel hf]
    decide

theorem visited_add_unvisited {n : Nat} (P : Fin n → Int) :
    visitedCount P + unvisitedCount P = n := by
  unfold visitedCount unvisitedCount
  have := Finset.filter_card_add_filter_neg_card_eq_card (s := (Finset.univ : Finset (Fin n)))
    (fun v => P v = -1)
  rw [Finset.card_univ, Fintype.card_fin] at this
  rw [Nat.add_comm]
  exact this

theorem roundBody_discovers (G : graph) (st : BFSState G.n) :
    (∀ d, (roundBody G st).Frontier.b d = true →
        st.parents d = -1 ∧ (roundBody G st).parents d ≠ -1) ∧
    visitedCount (roundBody G st).parents
      = visitedCount st.parents
        + (Finset.univ.filter (fun v => (roundBody G st).Frontier.b v = true)).card := by
  have g := edgeMap_grow G st.Frontier (st.parents, fun _ => false)
  obtain ⟨keep, new, _, out⟩ := g
  simp only at keep new out
  have hout : ∀ v, (edgeMap G st.Frontier (st.parents, fun _ => false)).2 v = true →
      st.parents v = -1 ∧ ∃ s, st.Frontier.b s = true ∧ G.edge s v := by
    intro v hv
    rw [out v] at hv
    rcases hv with hv | hv
    · simp at hv
    · exact hv
  have hvis : ∀ v, (edgeMap G st.Frontier (st.parents, fun _ => false)).1 v ≠ -1 ↔
      (st.parents v ≠ -1 ∨
        (edgeMap G st.Frontier (st.parents, fun _ => false)).2 v = true) := by
    intro v
    by_cases hv : st.parents v = -1
    · rw [new v hv, out v]; simp [hv]
    · rw [keep v hv]; simp [hv]
  constructor
  · intro d hd
    change (edgeMap G st.Frontier (st.parents, fun _ => false)).2 d = true at hd
    exact ⟨(hout d hd).1, (hvis d).2 (Or.inr hd)⟩
  · exact card_visited_grow st.parents _ _ hvis (fun v hv => (hout v hv).1)

/-- C10. Termination of the round loop: for every graph with `n` vertices and every source, the
loop run with a bound of `n + 1` rounds exits, having executed its body at least once and at most
`n + 1` times. In any round from any state, every vertex placed in the next frontier had parent
`-1` before the round and a parent other than `-1` after it, and a round that produces a
non-empty frontier strictly decreases the number of unvisited vertices. -/
theorem round_loop_terminates (G : graph) (src : Fin G.n) :
    (∃ final : BFSState G.n,
      BFS G src (G.n + 1) = some final ∧ 1 ≤ final.currIter ∧ final.currIter ≤ G.n + 1) ∧
    (∀ (st : BFSState G.n) (d : Fin G.n), (roundBody G st).Frontier.b d = true →
      st.parents d = -1 ∧ (roundBody G st).parents d ≠ -1) ∧
    (∀ st : BFSState G.n, (∃ d, (roundBody G st).Frontier.b d = true) →
      unvisitedCount (roundBody G st).parents < unvisitedCount st.parents) := by
  refine ⟨?_, fun st => (roundBody_discovers G st).1, ?_⟩
  · obtain ⟨R, hR1, hRn, _, _, hrun⟩ := BFS_exit G src
    have hiter : (stateAt G src R).currIter = R := (inv_stateAt G src R).iter
    exact ⟨stateAt G src R, hrun (G.n + 1) (by omega), by omega, by omega⟩
  · rintro st ⟨d, hd⟩
    have h1 := (roundBody_discovers G st).2
    have h2 := visited_add_unvisited st.parents
    have h3 := visited_add_unvisited (roundBody G st).parents
    have h4 : 0 < (Finset.univ.filter (fun v => (roundBody G st).Frontier.b v = true)).card :=
      Finset.card_pos.2 ⟨d, by simp [hd]⟩
    omega

theorem spawnLoop_sizes (tid lo hi : Int) (l : List Int) :
    ∀ (i : Nat) (s : Int),
      (spawnLoop tid lo hi i s l).map (fun a => a.endPos - a.startPos) = l := by
  induction l with
  | nil => intro i s; rfl
  | cons x l ih =>
    intro i s
    simp only [spawnLoop, List.map_cons, ih]
    simp

theorem spawnLoop_length (tid lo hi : Int) (l : List Int) :
    ∀ (i : Nat) (s : Int), (spawnLoop tid lo hi i s l).length = l.length := by
  induction l with
  | nil => intro i s; rfl
  | cons x l ih => intro i s; simp only [spawnLoop, List.length_cons, ih]

theorem spawnLoop_head (tid lo hi : Int) (l : List Int) (i : Nat) (s : Int) :
    ∀ a, a ∈ (spawnLoop tid lo hi i s l).head? → a.startPos = s := by
  cases l with
  | nil => intro a h; simp [spawnLoop] at h
  | cons x l =>
    intro a h
    simp only [spawnLoop, List.head?_cons, Option.mem_def, Option.some.injEq] at h
    rw [← h]

theorem spawnLoop_chain (tid lo hi : Int) (l : List Int) :
    ∀ (i : Nat) (s : Int),
      List.Chain' (fun a b => b.startPos = a.endPos) (spawnLoop tid lo hi i s l) := by
  induction l with
  | nil => intro i s; exact List.chain'_nil
  | cons x l ih =>
    intro i s
    simp only [spawnLoop]
    rw [List.chain'_cons']
    refine ⟨?_, ih (i + 1) (s + x)⟩
    intro b hb
    exact spawnLoop_head tid lo hi l (i + 1) (s + x) b hb

theorem spawnLoop_bounds (tid lo hi : Int) (l : List Int) (hl : ∀ x ∈ l, 0 ≤ x) :
    ∀ (i : Nat) (s : Int) (a : BFS_subworker_arg), a ∈ spawnLoop tid lo hi i s l →
      s ≤ a.startPos ∧ a.startPos ≤ a.endPos ∧ a.endPos ≤ s + l.sum := by
  induction l with
  | nil => intro i s a h; simp [spawnLoop] at h
  | cons x l ih =>
    intro i s a h
    have hx : 0 ≤ x := hl x (List.mem_cons_self x l)
    have hl' : ∀ y ∈ l, 0 ≤ y := fun y hy => hl y (List.mem_cons_of_mem x hy)
    have hsum : 0 ≤ l.sum := List.sum_nonneg hl'
    simp only [spawnLoop, List.mem_cons] at h
    rw [List.sum_cons]
    rcases h with h | h
    · subst h; simp only; omega
    · have := ih hl' (i + 1) (s + x) a h
      omega

theorem spawnLoop_pairwise (tid lo hi : Int) (l : List Int) (hl : ∀ x ∈ l, 0 ≤ x) :
    ∀ (i : Nat) (s : Int),
      List.Pairwise (fun a b => a.endPos ≤ b.startPos) (spawnLoop tid lo hi i s l) := by
  induction l with
  | nil => intro i s; exact List.Pairwise.nil
  | cons x l ih =>
    intro i s
    have hl' : ∀ y ∈ l, 0 ≤ y := fun y hy => hl y (List.mem_cons_of_mem x hy)
    simp only [spawnLoop]
    rw [List.pairwise_cons]
    refine ⟨?_, ih hl' (i + 1) (s + x)⟩
    intro b hb
    exact (spawnLoop_bounds tid lo hi l hl' (i + 1) (s + x) b hb).1

theorem spawnLoop_cover (tid lo hi : Int) (l : List Int) (hl : ∀ x ∈ l, 0 ≤ x) :
    ∀ (i : Nat) (s x : Int),
      (∃ a ∈ spawnLoop tid lo hi i s l, a.startPos ≤ x ∧ x < a.endPos) ↔
        (s ≤ x ∧ x < s + l.sum) := by
  induction l with
  | nil =>
    intro i s x
    simp only [spawnLoop, List.not_mem_nil, false_and, exists_false, List.sum_nil, add_zero,
      false_iff]
    omega
  | cons y l ih =>
    intro i s x
    have hy : 0 ≤ y := hl y (List.mem_cons_self y l)
    have hl' : ∀ z ∈ l, 0 ≤ z := fun z hz => hl z (List.mem_cons_of_mem y hz)
    have hsum : 0 ≤ l.sum := List.sum_nonneg hl'
    simp only [spawnLoop, List.mem_cons, List.sum_cons]
    constructor
    · rintro ⟨a, ha | ha, h1, h2⟩
      · subst ha; simp only at h1 h2; omega
      · have := (ih hl' (i + 1) (s + y) x).1 ⟨a, ha, h1, h2⟩
        omega
    · rintro ⟨h1, h2⟩
      by_cases hx : x < s + y
      · exact ⟨_, Or.inl rfl, h1, hx⟩
      · obtain ⟨a, ha, h3, h4⟩ := (ih hl' (i + 1) (s + y) x).2 ⟨by omega, by omega⟩
        exact ⟨a, Or.inr ha, h3, h4⟩

/-- C9, as the code behaves. For every node range `[rangeLow, rangeHi)` and every array of
`CORES_PER_NODE` non-negative shard sizes summing to `rangeHi - rangeLow`, the
`(startPos, endPos)` ranges that `BFSWorker` assigns to its subworkers are `CORES_PER_NODE` many,
the first starts at 0, each has `endPos = startPos + size`, each starts where the previous one
ends, they are pairwise non-overlapping, and together they cover exactly the node-relative
offsets `[0, rangeHi - rangeLow)`. -/
theorem subworker_ranges (tid rangeLow rangeHi : Int) (sizeOfShards : Fin CORES_PER_NODE → Int)
    (hnonneg : ∀ i, 0 ≤ sizeOfShards i)
    (hsum : (List.ofFn sizeOfShards).sum = rangeHi - rangeLow) :
    (BFSWorker_args tid rangeLow rangeHi sizeOfShards).length = CORES_PER_NODE ∧
    (∀ a, a ∈ (BFSWorker_args tid rangeLow rangeHi sizeOfShards).head? → a.startPos = 0) ∧
    (BFSWorker_args tid rangeLow rangeHi sizeOfShards).map (fun a => a.endPos - a.startPos)
      = List.ofFn sizeOfShards ∧
    List.Chain' (fun a b => b.startPos = a.endPos)
      (BFSWorker_args tid rangeLow rangeHi sizeOfShards) ∧
    List.Pairwise (fun a b => a.endPos ≤ b.startPos)
      (BFSWorker_args tid rangeLow rangeHi sizeOfShards) ∧
    ∀ x : Int,
      (∃ a ∈ BFSWorker_args tid rangeLow rangeHi sizeOfShards, a.startPos ≤ x ∧ x < a.endPos) ↔
        (0 ≤ x ∧ x < rangeHi - rangeLow) := by
  have hl : ∀ x ∈ List.ofFn sizeOfShards, 0 ≤ x := by
    intro x hx
    rw [List.mem_ofFn] at hx
    obtain ⟨i, rfl⟩ := hx
    exact hnonneg i
  unfold BFSWorker_args
  refine ⟨?_, spawnLoop_head _ _ _ _ 0 0, spawnLoop_sizes _ _ _ _ 0 0,
    spawnLoop_chain _ _ _ _ 0 0, spawnLoop_pairwise _ _ _ _ hl 0 0, ?_⟩
  · rw [spawnLoop_length, List.length_ofFn]
  · intro x
    rw [spawnLoop_cover _ _ _ _ hl 0 0 x, hsum]
    simp

theorem subworker_ranges_witness :
    (∀ i : Fin CORES_PER_NODE, (0 : Int) ≤ (fun _ => 1) i) ∧
    (List.ofFn (fun _ : Fin CORES_PER_NODE => (1 : Int))).sum = 12 - 6 ∧
    (BFSWorker_args 1 6 12 (fun _ => 1)).length = CORES_PER_NODE :=
  ⟨by decide, by decide,
    (subworker_ranges 1 6 12 (fun _ => 1) (by decide) (by decide)).1⟩

/-- C9, counterexample to the stated cover: with two nodes of six vertices each, `BFS` gives
node 1 the range `[6, 12)`; for six shards of size 1 the ranges `BFSWorker` assigns on that node
start at 0 and do not cover exactly `[6, 12)`: offset 0 lies in the first range. -/
theorem subworker_ranges_not_node_range :
    BFS_nodeRanges [6, 6] = [(0, 6), (6, 12)] ∧
    (BFSWorker_args 1 6 12 (fun _ => 1)).map (fun a => (a.startPos, a.endPos))
      = [(0, 1), (1, 2), (2, 3), (3, 4), (4, 5), (5, 6)] ∧
    ¬ ∀ x : Int,
      (∃ a ∈ BFSWorker_args 1 6 12 (fun _ => 1), a.startPos ≤ x ∧ x < a.endPos) ↔
        (6 ≤ x ∧ x < 12) := by
  refine ⟨by decide, by decide, ?_⟩
  intro h
  have h0 := (h 0).1 (by decide)
  omega
